import Mathlib

/-!
A shallow embedding of the golfbets scoring-and-settlement core
(`app/src/logic/skins.ts`, `wolf.ts`, `bbb.ts`, `bbbSettlement.ts`,
`settlementMatcher.ts`) together with proofs of the specified properties.

Modelling conventions:
* JavaScript records keyed by `PlayerId` are modelled as total functions
  `String → _` with the record's default (`|| 0` reads) baked in as the
  function's value off the stored keys.
* `Record<HoleNumber, _>` maps are modelled as `Nat → Option _`
  (`none` = key absent or stored `null`).
* JS numbers used as strokes, points and cents are modelled as `Int`
  (the code only ever compares, adds and multiplies them); the skins
  carry counter and BBB points, which are only ever incremented from 0,
  are modelled as `Nat`.
* Fields of `Round` that none of the scoring functions read
  (`id`, `name`, `game`, `createdAt`, `locked`, the dollars-per-point
  configs and `stakeCents`) are omitted from the embedded `Round`.
-/

/-- `Player` from `types.ts`: an id string plus display name. -/
structure Player where
  id : String
  name : String
deriving DecidableEq, Repr

/-- `BBBHoleAwards` from `bbb.ts`: three nullable award-winner slots. -/
structure BBBHoleAwards where
  bingo : Option String
  bango : Option String
  bongo : Option String
deriving DecidableEq, Repr

/-- `Round` from `types.ts`, restricted to the fields the scoring engines
read. `strokesByHole h pid = none` models both a missing hole record and a
stored `null` stroke; `wolfPartnerByHole h = none` models `?.[hole] ?? null`. -/
structure Round where
  players : List Player
  strokesByHole : Nat → String → Option Int
  wolfPointsPerHole : Option Int
  wolfLoneMultiplier : Option Int
  wolfStartingIndex : Option Nat
  wolfPartnerByHole : Nat → Option String
  bbbAwardsByHole : Nat → Option BBBHoleAwards

/-- `holes18()` from the source: the list `[1, 2, …, 18]`. -/
def holes18 : List Nat := List.range' 1 18

/-- The JS record update `f[k] += d` on a record modelled as a total
function: add `d` at key `k`, leave every other key unchanged. -/
def updAdd {M : Type} [Add M] (f : String → M) (k : String) (d : M) : String → M :=
  fun x => if x = k then f x + d else f x

/-- `ks.foldl` of repeated `updAdd` with the same increment: models the JS
loops `for (const id of team) rec[id] += d`. -/
def addAll {M : Type} [Add M] (f : String → M) (ks : List String) (d : M) : String → M :=
  ks.foldl (fun g k => updAdd g k d) f

/-- `Math.min(...l)`: `none` models the empty spread (`Infinity` in JS). -/
def listMin : List Int → Option Int
  | [] => none
  | x :: xs => some (xs.foldl min x)

/-- Sum of a player-indexed quantity over a list of player ids. -/
def sumOver {M : Type} [AddCommMonoid M] (ids : List String) (f : String → M) : M :=
  (ids.map f).sum

/-! ## Skins (`skins.ts`) -/

/-- `SkinsHoleResult` from `types.ts`. -/
structure SkinsHoleResult where
  hole : Nat
  carrySkins : Nat
  winnerId : Option String
  wonSkins : Nat
deriving DecidableEq, Repr

/-- `SkinsSummary` from `types.ts` (`skinsWon` record as a total function). -/
structure SkinsSummary where
  holeResults : List SkinsHoleResult
  skinsWon : String → Nat
  carryToNext : Nat

/-- The `entries` list of `computeSkins`: each player paired with their
entered stroke, players with a missing stroke filtered out. -/
def holeEntries (players : List Player) (st : String → Option Int) : List (String × Int) :=
  players.filterMap (fun p => (st p.id).map (fun v => (p.id, v)))

/-- The `winners` list of `computeSkins`: the entries whose stroke equals
the hole minimum (empty when there are no entries, matching
`Math.min() = Infinity` matching nothing). -/
def holeMinWinners (players : List Player) (st : String → Option Int) : List (String × Int) :=
  match listMin ((holeEntries players st).map (·.2)) with
  | none => []
  | some m => (holeEntries players st).filter (fun e => e.2 = m)

/-- One iteration of the `computeSkins` hole loop, minus the `skinsWon`
update: produces the pushed `SkinsHoleResult` and the carry for the next
hole, from the incoming carry `c`. -/
def skinsHole (players : List Player) (st : String → Option Int) (c : Nat) (h : Nat) :
    SkinsHoleResult × Nat :=
  if (holeEntries players st).length < players.length then
    (⟨h, c, none, 0⟩, c)
  else
    match holeMinWinners players st with
    | [w] => (⟨h, c, some w.1, 1 + c⟩, 0)
    | _ => (⟨h, c, none, 0⟩, c + 1)

/-- The running state of the `computeSkins` loop. -/
structure SkinsAcc where
  skinsWon : String → Nat
  holeResults : List SkinsHoleResult
  carry : Nat

/-- One full iteration of the `computeSkins` loop: resolve the hole,
credit the winner (if any) with the won skins, append the result. -/
def skinsStep (players : List Player) (st2 : Nat → String → Option Int)
    (acc : SkinsAcc) (h : Nat) : SkinsAcc :=
  let r := skinsHole players (st2 h) acc.carry h
  { skinsWon :=
      match r.1.winnerId with
      | some wid => updAdd acc.skinsWon wid r.1.wonSkins
      | none => acc.skinsWon
    holeResults := acc.holeResults ++ [r.1]
    carry := r.2 }

/-- The `computeSkins` loop run over a given list of holes from the
initial state (empty `skinsWon` record, no results, carry 0). -/
def skinsRun (players : List Player) (st2 : Nat → String → Option Int)
    (hs : List Nat) : SkinsAcc :=
  hs.foldl (skinsStep players st2) ⟨fun _ => 0, [], 0⟩

/-- `computeSkins` from `skins.ts`. -/
def computeSkins (r : Round) : SkinsSummary :=
  let acc := skinsRun r.players r.strokesByHole holes18
  { holeResults := acc.holeResults, skinsWon := acc.skinsWon, carryToNext := acc.carry }

/-- The carry counter of `computeSkins` after the first `n` holes have
been traversed. -/
def carryAt (r : Round) (n : Nat) : Nat :=
  (skinsRun r.players r.strokesByHole (holes18.take n)).carry

/-! ## Wolf (`wolf.ts`) -/

/-- The `status` union of `WolfHoleResult`. -/
inductive WolfStatus where
  | incomplete
  | tie
  | wolfWin
  | wolfLose
deriving DecidableEq, Repr

/-- `WolfHoleResult` from `wolf.ts` (`pointsDeltaByPlayer` record as a
total function, zero off the stored keys). -/
structure WolfHoleResult where
  hole : Nat
  wolfId : String
  partnerId : Option String
  status : WolfStatus
  delta : String → Int

/-- `WolfSummary` from `wolf.ts`. -/
structure WolfSummary where
  pointsByPlayer : String → Int
  holeResults : List WolfHoleResult

/-- `getWolfId` from `wolf.ts`: `players[(start + (hole − 1)) % players.length].id`
(the out-of-bounds case, impossible for a nonempty players list, is given
the junk id `""`). -/
def getWolfId (players : List Player) (start : Nat) (hole : Nat) : String :=
  (((players.get? ((start + (hole - 1)) % players.length))).map Player.id).getD ""

/-- The lone-wolf branch of the `computeWolf` hole loop. The `none` case
of the opponents' best ball models `Math.min()` of an empty spread
(`Infinity`), which every wolf score beats. -/
def wolfLone (players : List Player) (st : String → Option Int) (wId : String)
    (pts mult : Int) (h : Nat) : WolfHoleResult :=
  match listMin ((players.filter (fun p => p.id ≠ wId)).map (fun p => (st p.id).getD 0)) with
  | none =>
      ⟨h, wId, none, .wolfWin, updAdd (fun _ => 0) wId (pts * mult)⟩
  | some othersBest =>
      if (st wId).getD 0 < othersBest then
        ⟨h, wId, none, .wolfWin, updAdd (fun _ => 0) wId (pts * mult)⟩
      else if othersBest < (st wId).getD 0 then
        ⟨h, wId, none, .wolfLose, updAdd (fun _ => 0) wId (-(pts * mult))⟩
      else
        ⟨h, wId, none, .tie, fun _ => 0⟩

/-- The `otherTeam` of the 2v2 branch: every player id other than the
wolf's and the partner's. -/
def wolfOtherTeam (players : List Player) (wId pid : String) : List String :=
  (players.map Player.id).filter (fun i => i ≠ wId ∧ i ≠ pid)

/-- The 2v2 best-ball branch of the `computeWolf` hole loop. As in
`wolfLone`, `none` best ball models `Math.min()` of an empty spread. -/
def wolfTeamHole (players : List Player) (st : String → Option Int) (wId pid : String)
    (pts : Int) (h : Nat) : WolfHoleResult :=
  match listMin ([wId, pid].map (fun i => (st i).getD 0)),
      listMin ((wolfOtherTeam players wId pid).map (fun i => (st i).getD 0)) with
  | none, _ =>
      ⟨h, wId, some pid, .wolfWin,
        addAll (addAll (fun _ => 0) [wId, pid] pts) (wolfOtherTeam players wId pid) (-pts)⟩
  | some _, none =>
      ⟨h, wId, some pid, .wolfWin,
        addAll (addAll (fun _ => 0) [wId, pid] pts) (wolfOtherTeam players wId pid) (-pts)⟩
  | some wb, some ob =>
      if wb < ob then
        ⟨h, wId, some pid, .wolfWin,
          addAll (addAll (fun _ => 0) [wId, pid] pts) (wolfOtherTeam players wId pid) (-pts)⟩
      else if ob < wb then
        ⟨h, wId, some pid, .wolfLose,
          addAll (addAll (fun _ => 0) [wId, pid] (-pts)) (wolfOtherTeam players wId pid) pts⟩
      else ⟨h, wId, some pid, .tie, fun _ => 0⟩

/-- One hole of `computeWolf`: incompleteness check, then lone-wolf
(partner absent, equal to the wolf, or the empty string, which is falsy
in JS) versus 2v2. -/
def wolfHole (players : List Player) (st : String → Option Int) (partnerCfg : Option String)
    (wId : String) (pts mult : Int) (h : Nat) : WolfHoleResult :=
  if ¬ (players.all (fun p => (st p.id).isSome)) then
    ⟨h, wId, partnerCfg, .incomplete, fun _ => 0⟩
  else
    match partnerCfg with
    | none => wolfLone players st wId pts mult h
    | some pid =>
        if pid = "" ∨ pid = wId then wolfLone players st wId pts mult h
        else wolfTeamHole players st wId pid pts h

/-- `computeWolf` with the configuration defaults already resolved
(`pts`, `mult`, `start`). The JS hole loop's iterations are independent,
so it is rendered as a map over the holes, with `pointsByPlayer` the
pointwise sum of the per-hole deltas. -/
def computeWolfGo (players : List Player) (st2 : Nat → String → Option Int)
    (partner : Nat → Option String) (pts mult : Int) (start : Nat) : WolfSummary :=
  let hrs := holes18.map (fun h =>
    wolfHole players (st2 h) (partner h) (getWolfId players start h) pts mult h)
  { pointsByPlayer := fun x => (hrs.map (fun hr => hr.delta x)).sum
    holeResults := hrs }

/-- `computeWolf` from `wolf.ts`: `typeof cfg === 'number' ? cfg : default`
becomes `Option.getD` with defaults 1 (points per hole), 2 (lone
multiplier) and 0 (starting rotation index). -/
def computeWolf (r : Round) : WolfSummary :=
  computeWolfGo r.players r.strokesByHole r.wolfPartnerByHole
    (r.wolfPointsPerHole.getD 1) (r.wolfLoneMultiplier.getD 2) (r.wolfStartingIndex.getD 0)

/-- Validity of the per-hole partner configuration: every configured
partner id (over the 18 holes) is the id of one of the round's players. -/
def partnerOk (r : Round) : Bool :=
  holes18.all (fun h =>
    match r.wolfPartnerByHole h with
    | none => true
    | some pid => (r.players.map Player.id).contains pid)

/-- Sum of a per-player quantity over all players of the round. -/
def sumDeltaOver (r : Round) (f : String → Int) : Int :=
  sumOver (r.players.map Player.id) f

/-! ## Bingo-Bango-Bongo (`bbb.ts`) -/

/-- `BBBSummary` from `bbb.ts` (`pointsByPlayer` record as a total
function, zero off the stored keys). -/
structure BBBSummary where
  through : Nat
  pointsByPlayer : String → Nat
  holeAwards : Nat → Option BBBHoleAwards

/-- The award crediting of one BBB hole record: each of the three slots
earns its winner 1 point, provided the winner id is truthy (non-empty, as
in the JS `winner &&` check) and is an initialised key of the points
record (`pointsByPlayer[winner] != null`), i.e. one of the round's
players. -/
def bbbApplyAward (players : List Player) (pts : String → Nat) (a : BBBHoleAwards) :
    String → Nat :=
  [a.bingo, a.bango, a.bongo].foldl
    (fun f w =>
      match w with
      | some wid =>
          if wid ≠ "" ∧ wid ∈ players.map Player.id then updAdd f wid 1 else f
      | none => f)
    pts

/-- The `computeBBB` hole loop: scan the holes in order, stop (`break`)
at the first hole with no award record, otherwise set `through` to the
current hole and credit its awards. -/
def bbbScan (players : List Player) (awards : Nat → Option BBBHoleAwards) :
    List Nat → Nat → (String → Nat) → Nat × (String → Nat)
  | [], through, pts => (through, pts)
  | h :: hs, through, pts =>
      match awards h with
      | none => (through, pts)
      | some a => bbbScan players awards hs h (bbbApplyAward players pts a)

/-- `computeBBB` from `bbb.ts`. -/
def computeBBB (r : Round) : BBBSummary :=
  let tp := bbbScan r.players r.bbbAwardsByHole holes18 0 (fun _ => 0)
  { through := tp.1, pointsByPlayer := tp.2, holeAwards := r.bbbAwardsByHole }

/-- Modelled from the spec: "`through` is the highest hole number reached
by a contiguous forward scan from hole 1 that stops at the first hole
lacking a record" — the length of the longest all-recorded prefix of
holes 1..18. Stated from the spec's words, to be compared with
`computeBBB`. -/
def throughSpecScan (awards : Nat → Option BBBHoleAwards) : Nat :=
  (holes18.takeWhile (fun h => (awards h).isSome)).length

/-! ## Netting engine (`settlementMatcher.ts`) -/

/-- `SettlementLineShape`: one directed payment instruction. The source
field names `from`/`to` are keywords in Lean and are rendered
`fromPlayer`/`toPlayer`. -/
structure SettlementLine where
  fromPlayer : Player
  toPlayer : Player
  amountCents : Int
deriving DecidableEq, Repr

/-- The greedy two-pointer `while` loop of `settlementLinesFromNet`,
rendered on the suffixes of the debtor and creditor arrays from the
current indices on. `pay = min(−dn, cn)` always zeroes at least one of
the two current balances, so at least one pointer advances each
iteration; the final `else` arm (`pay ≤ 0` with neither balance zero) is
where the JS loop would spin forever — it is unreachable from
`settlementLinesFromNet`'s filtered inputs and is modelled as `[]`. -/
def netLoop : List (Player × Int) → List (Player × Int) → List SettlementLine
  | (dp, dn) :: ds, (cp, cn) :: cs =>
      let pay := min (-dn) cn
      if 0 < pay then
        let dn' := dn + pay
        let cn' := cn - pay
        let line : SettlementLine := ⟨dp, cp, pay⟩
        if dn' = 0 then
          if cn' = 0 then line :: netLoop ds cs
          else line :: netLoop ds ((cp, cn') :: cs)
        else line :: netLoop ((dp, dn') :: ds) cs
      else
        if dn = 0 then
          if cn = 0 then netLoop ds cs
          else netLoop ds ((cp, cn) :: cs)
        else if cn = 0 then netLoop ((dp, dn) :: ds) cs
        else []
  | _, _ => []
termination_by ds cs => ds.length + cs.length
decreasing_by all_goals simp_arith

/-- `settlementLinesFromNet` from `settlementMatcher.ts`: pair every
player with their net (`cloneNet`, with `netById[p.id] || 0` folded into
the total function `net`), keep creditors sorted by descending net and
debtors by ascending net (JS `.sort` is stable, as is `mergeSort`), then
run the greedy matcher. -/
def settlementLinesFromNet (players : List Player) (net : String → Int) :
    List SettlementLine :=
  netLoop
    (((players.map (fun p => (p, net p.id))).filter
      (fun x => x.2 < 0)).mergeSort (fun a b => a.2 ≤ b.2))
    (((players.map (fun p => (p, net p.id))).filter
      (fun x => 0 < x.2)).mergeSort (fun a b => b.2 ≤ a.2))

/-- Total amount paid to player id `x` across a list of settlement lines. -/
def paidTo (lines : List SettlementLine) (x : String) : Int :=
  (lines.map (fun l => if l.toPlayer.id = x then l.amountCents else 0)).sum

/-- Total amount paid by player id `x` across a list of settlement lines. -/
def paidBy (lines : List SettlementLine) (x : String) : Int :=
  (lines.map (fun l => if l.fromPlayer.id = x then l.amountCents else 0)).sum

/-! ## BBB settlement adapter (`bbbSettlement.ts`) -/

/-- `Settlement` from `wolfSettlement.ts` (net record as a total
function). -/
structure Settlement where
  netByPlayer : String → Int
  lines : List SettlementLine

/-- `computeBBBSettlement` from `bbbSettlement.ts`: reconstruct a
zero-sum transfer `net[p] = (points[p] * N − totalPoints) * dollarsPerPoint`
and delegate to the netting engine; degenerate rounds (`N ≤ 1`) settle to
nothing. -/
def computeBBBSettlement (players : List Player) (points : String → Int)
    (dollarsPerPointCents : Int) : Settlement :=
  if players.length ≤ 1 then { netByPlayer := fun _ => 0, lines := [] }
  else
    { netByPlayer := fun x =>
        (points x * players.length - (players.map (fun p => points p.id)).sum)
          * dollarsPerPointCents
      lines := settlementLinesFromNet players (fun x =>
        (points x * players.length - (players.map (fun p => points p.id)).sum)
          * dollarsPerPointCents) }

/-! ## Generic lemmas about summed player records -/

theorem sumOver_nil {M : Type} [AddCommMonoid M] (f : String → M) :
    sumOver [] f = 0 := rfl

theorem sumOver_cons {M : Type} [AddCommMonoid M] (f : String → M) (y : String)
    (ys : List String) : sumOver (y :: ys) f = f y + sumOver ys f := by
  simp [sumOver]

theorem sumOver_zero {M : Type} [AddCommMonoid M] (L : List String) :
    sumOver L (fun _ => (0 : M)) = 0 := by
  induction L with
  | nil => rfl
  | cons y ys ih => rw [sumOver_cons, ih, add_zero]

theorem sumOver_congr {M : Type} [AddCommMonoid M] {L : List String} {f g : String → M}
    (h : ∀ x ∈ L, f x = g x) : sumOver L f = sumOver L g := by
  unfold sumOver
  rw [List.map_congr_left h]

theorem updAdd_apply_ne {M : Type} [Add M] (f : String → M) (k : String) (d : M)
    {x : String} (hx : x ≠ k) : updAdd f k d x = f x := by
  simp [updAdd, hx]

theorem updAdd_apply_self {M : Type} [Add M] (f : String → M) (k : String) (d : M) :
    updAdd f k d k = f k + d := by
  simp [updAdd]

theorem sumOver_updAdd {M : Type} [AddCommMonoid M] {L : List String} {k : String}
    (f : String → M) (d : M) (hnd : L.Nodup) (hk : k ∈ L) :
    sumOver L (updAdd f k d) = sumOver L f + d := by
  induction L with
  | nil => cases hk
  | cons y ys ih =>
    have hy : y ∉ ys := (List.nodup_cons.mp hnd).1
    have hys : ys.Nodup := (List.nodup_cons.mp hnd).2
    rcases List.mem_cons.mp hk with h | h
    · have heq : sumOver ys (updAdd f k d) = sumOver ys f :=
        sumOver_congr (fun x hx => updAdd_apply_ne f k d (by
          intro e; rw [e, h] at hx; exact hy hx))
      rw [sumOver_cons, sumOver_cons, heq, ← h, updAdd_apply_self, add_right_comm]
    · have hyk : y ≠ k := by
        intro e; rw [e] at hy; exact hy h
      rw [sumOver_cons, sumOver_cons, updAdd_apply_ne f k d hyk, ih hys h, add_assoc]

theorem sumOver_addAll {L : List String} (ks : List String) (f : String → Int) (d : Int)
    (hnd : L.Nodup) (hks : ∀ k ∈ ks, k ∈ L) :
    sumOver L (addAll f ks d) = sumOver L f + ks.length * d := by
  induction ks generalizing f with
  | nil => simp [addAll]
  | cons k ks ih =>
    have hstep : addAll f (k :: ks) d = addAll (updAdd f k d) ks d := rfl
    rw [hstep, ih (updAdd f k d) (fun x hx => hks x (List.mem_cons_of_mem k hx)),
      sumOver_updAdd f d hnd (hks k (List.mem_cons_self k ks))]
    simp only [List.length_cons]
    push_cast
    ring

theorem length_filter_one {L : List String} {b : String} (hnd : L.Nodup) (hb : b ∈ L) :
    (L.filter (fun i => i ≠ b)).length = L.length - 1 := by
  induction L with
  | nil => cases hb
  | cons y ys ih =>
    have hy : y ∉ ys := (List.nodup_cons.mp hnd).1
    have hys : ys.Nodup := (List.nodup_cons.mp hnd).2
    rcases List.mem_cons.mp hb with h | h
    · have hfull : ys.filter (fun i => i ≠ b) = ys :=
        List.filter_eq_self.mpr (fun x hx => by
          have : x ≠ b := by
            intro e; rw [e, h] at hx; exact hy hx
          simpa using this)
      simp only [List.filter_cons]
      rw [if_neg (by simp [h]), hfull]
      simp
    · have hyb : y ≠ b := by
        intro e; rw [e] at hy; exact hy h
      have hpos : 1 ≤ ys.length := List.length_pos.mpr (List.ne_nil_of_mem h)
      simp only [List.filter_cons]
      rw [if_pos (by simpa using hyb)]
      simp only [List.length_cons, ih hys h]
      omega

theorem length_filter_two {L : List String} {a b : String} (hnd : L.Nodup)
    (ha : a ∈ L) (hb : b ∈ L) (hab : a ≠ b) :
    (L.filter (fun i => i ≠ a ∧ i ≠ b)).length = L.length - 2 := by
  have hsplit : L.filter (fun i => i ≠ a ∧ i ≠ b)
      = (L.filter (fun i => i ≠ a)).filter (fun i => i ≠ b) := by
    rw [List.filter_filter]
    exact (List.filter_congr (fun x _ => by
      by_cases hxa : x = a <;> by_cases hxb : x = b <;> simp [hxa, hxb])).symm
  have hnd' : (L.filter (fun i => i ≠ a)).Nodup := hnd.filter _
  have hb' : b ∈ L.filter (fun i => i ≠ a) :=
    List.mem_filter.mpr ⟨hb, by simpa using hab.symm⟩
  have h2 : 2 ≤ L.length := by
    rcases List.append_of_mem ha with ⟨l1, l2, rfl⟩
    rcases List.mem_append.mp hb with hbl | hbl
    · have : 1 ≤ l1.length := List.length_pos.mpr (List.ne_nil_of_mem hbl)
      simp only [List.length_append, List.length_cons]
      omega
    · have hbl2 : b ∈ l2 := by
        rcases List.mem_cons.mp hbl with h | h
        · exact absurd h.symm hab
        · exact h
      have : 1 ≤ l2.length := List.length_pos.mpr (List.ne_nil_of_mem hbl2)
      simp only [List.length_append, List.length_cons]
      omega
  rw [hsplit, length_filter_one hnd' hb', length_filter_one hnd ha]
  omega

/-! ## Lemmas about the hole list -/

theorem holes18_get {n : Nat} (hn : n < 18) : holes18[n]? = some (1 + n) := by
  unfold holes18
  rw [List.getElem?_range' 1 1 hn]
  simp

theorem holes18_length : holes18.length = 18 := by
  simp [holes18]

theorem holes18_mem {h : Nat} : h ∈ holes18 ↔ 1 ≤ h ∧ h < 19 := by
  simp only [holes18, List.mem_range']
  constructor
  · rintro ⟨i, hi, rfl⟩; omega
  · rintro ⟨h1, h2⟩; exact ⟨h - 1, by omega, by omega⟩

/-! ## Lemmas about the skins loop -/

theorem skinsStep_res (players : List Player) (st2 : Nat → String → Option Int)
    (h : Nat) (w : String → Nat) (res : List SkinsHoleResult) (c : Nat) :
    skinsStep players st2 ⟨w, res, c⟩ h =
      ⟨(skinsStep players st2 ⟨w, [], c⟩ h).skinsWon,
       res ++ (skinsStep players st2 ⟨w, [], c⟩ h).holeResults,
       (skinsStep players st2 ⟨w, [], c⟩ h).carry⟩ := rfl

theorem foldl_skinsStep_shift (players : List Player) (st2 : Nat → String → Option Int)
    (hs : List Nat) (w : String → Nat) (res : List SkinsHoleResult) (c : Nat) :
    hs.foldl (skinsStep players st2) ⟨w, res, c⟩ =
      ⟨(hs.foldl (skinsStep players st2) ⟨w, [], c⟩).skinsWon,
       res ++ (hs.foldl (skinsStep players st2) ⟨w, [], c⟩).holeResults,
       (hs.foldl (skinsStep players st2) ⟨w, [], c⟩).carry⟩ := by
  induction hs generalizing w res c with
  | nil => simp
  | cons h hs ih =>
    simp only [List.foldl_cons]
    rw [skinsStep_res players st2 h w res c]
    rw [ih _ (res ++ _) _, ih ((skinsStep players st2 ⟨w, [], c⟩ h).skinsWon)
      ((skinsStep players st2 ⟨w, [], c⟩ h).holeResults) _]
    simp [List.append_assoc]

theorem foldl_skinsStep_length (players : List Player) (st2 : Nat → String → Option Int)
    (hs : List Nat) (w : String → Nat) (c : Nat) :
    ((hs.foldl (skinsStep players st2) ⟨w, [], c⟩).holeResults).length = hs.length := by
  induction hs generalizing w c with
  | nil => rfl
  | cons h hs ih =>
    simp only [List.foldl_cons]
    rw [show skinsStep players st2 ⟨w, [], c⟩ h =
      ⟨(skinsStep players st2 ⟨w, [], c⟩ h).skinsWon,
       (skinsStep players st2 ⟨w, [], c⟩ h).holeResults,
       (skinsStep players st2 ⟨w, [], c⟩ h).carry⟩ from rfl]
    have hone : (skinsStep players st2 ⟨w, [], c⟩ h).holeResults
        = [(skinsHole players (st2 h) c h).1] := rfl
    rw [foldl_skinsStep_shift, hone]
    simp only [List.length_append, List.length_cons, List.length_nil]
    rw [ih]
    omega

theorem holes18_take_succ {n : Nat} (hn : n < 18) :
    holes18.take (n + 1) = holes18.take n ++ [1 + n] := by
  rw [List.take_succ, holes18_get hn]
  rfl

theorem skinsRun_take_succ (r : Round) {n : Nat} (hn : n < 18) :
    skinsRun r.players r.strokesByHole (holes18.take (n + 1)) =
      skinsStep r.players r.strokesByHole
        (skinsRun r.players r.strokesByHole (holes18.take n)) (1 + n) := by
  unfold skinsRun
  rw [holes18_take_succ hn, List.foldl_append]
  rfl

theorem skins_get_hole (r : Round) {n : Nat} (hn : n < 18) :
    (computeSkins r).holeResults[n]? =
      some (skinsHole r.players (r.strokesByHole (1 + n)) (carryAt r n) (1 + n)).1
    ∧ carryAt r (n + 1) =
      (skinsHole r.players (r.strokesByHole (1 + n)) (carryAt r n) (1 + n)).2 := by
  have hcarry : carryAt r (n + 1) =
      (skinsHole r.players (r.strokesByHole (1 + n)) (carryAt r n) (1 + n)).2 := by
    unfold carryAt
    rw [skinsRun_take_succ r hn]
    rfl
  refine ⟨?_, hcarry⟩
  have hsplit : holes18 = holes18.take (n + 1) ++ holes18.drop (n + 1) :=
    (List.take_append_drop (n + 1) holes18).symm
  have hrun : skinsRun r.players r.strokesByHole holes18 =
      (holes18.drop (n + 1)).foldl (skinsStep r.players r.strokesByHole)
        (skinsRun r.players r.strokesByHole (holes18.take (n + 1))) := by
    conv_lhs => rw [hsplit]
    unfold skinsRun
    rw [List.foldl_append]
  have hres : (computeSkins r).holeResults =
      (skinsRun r.players r.strokesByHole (holes18.take (n + 1))).holeResults ++
      ((holes18.drop (n + 1)).foldl (skinsStep r.players r.strokesByHole)
        ⟨(skinsRun r.players r.strokesByHole (holes18.take (n + 1))).skinsWon, [],
         (skinsRun r.players r.strokesByHole (holes18.take (n + 1))).carry⟩).holeResults := by
    show (skinsRun r.players r.strokesByHole holes18).holeResults = _
    rw [hrun, foldl_skinsStep_shift]
  have hlen1 : (skinsRun r.players r.strokesByHole (holes18.take (n + 1))).holeResults.length
      = n + 1 := by
    unfold skinsRun
    rw [foldl_skinsStep_length, List.length_take, holes18_length]
    omega
  have hlast : (skinsRun r.players r.strokesByHole (holes18.take (n + 1))).holeResults =
      (skinsRun r.players r.strokesByHole (holes18.take n)).holeResults ++
      [(skinsHole r.players (r.strokesByHole (1 + n)) (carryAt r n) (1 + n)).1] := by
    rw [skinsRun_take_succ r hn]
    rw [show skinsRun r.players r.strokesByHole (holes18.take n) =
      ⟨(skinsRun r.players r.strokesByHole (holes18.take n)).skinsWon,
       (skinsRun r.players r.strokesByHole (holes18.take n)).holeResults,
       (skinsRun r.players r.strokesByHole (holes18.take n)).carry⟩ from rfl,
      skinsStep_res]
    rfl
  have hlen0 : (skinsRun r.players r.strokesByHole (holes18.take n)).holeResults.length = n := by
    unfold skinsRun
    rw [foldl_skinsStep_length, List.length_take, holes18_length]
    omega
  rw [hres, List.getElem?_append_left (by omega), hlast,
    List.getElem?_append_right (by omega), hlen0]
  simp

/-! ## Lemmas about hole entries -/

theorem holeEntries_length_all (players : List Player) (st : String → Option Int)
    (hall : ∀ p ∈ players, (st p.id).isSome = true) :
    (holeEntries players st).length = players.length := by
  induction players with
  | nil => rfl
  | cons p ps ih =>
    obtain ⟨v, hv⟩ := Option.isSome_iff_exists.mp (hall p (List.mem_cons_self p ps))
    have : holeEntries (p :: ps) st = (p.id, v) :: holeEntries ps st := by
      simp [holeEntries, hv]
    rw [this]
    simp only [List.length_cons]
    rw [ih (fun q hq => hall q (List.mem_cons_of_mem p hq))]

theorem holeEntries_length_lt (players : List Player) (st : String → Option Int)
    {p : Player} (hp : p ∈ players) (hnone : st p.id = none) :
    (holeEntries players st).length < players.length := by
  induction players with
  | nil => cases hp
  | cons q ps ih =>
    rcases List.mem_cons.mp hp with h | h
    · have : holeEntries (q :: ps) st = holeEntries ps st := by
        simp [holeEntries, ← h, hnone]
      rw [this]
      have := List.length_filterMap_le
        (fun p => (st p.id).map (fun v => (p.id, v))) ps
      simp only [List.length_cons]
      exact Nat.lt_succ_of_le this
    · cases hq : st q.id with
      | none =>
          have : holeEntries (q :: ps) st = holeEntries ps st := by
            simp [holeEntries, hq]
          rw [this]
          simp only [List.length_cons]
          exact Nat.lt_succ_of_lt (ih h)
      | some v =>
          have : holeEntries (q :: ps) st = (q.id, v) :: holeEntries ps st := by
            simp [holeEntries, hq]
          rw [this]
          simp only [List.length_cons]
          exact Nat.succ_lt_succ (ih h)

theorem mem_holeEntries_ids {players : List Player} {st : String → Option Int}
    {e : String × Int} (he : e ∈ holeEntries players st) :
    e.1 ∈ players.map Player.id := by
  obtain ⟨p, hp, hep⟩ := List.mem_filterMap.mp he
  cases hst : st p.id with
  | none => rw [hst] at hep; cases hep
  | some v =>
      rw [hst] at hep
      simp only [Option.map_some', Option.some.injEq] at hep
      rw [← hep]
      exact List.mem_map.mpr ⟨p, hp, rfl⟩

theorem mem_holeMinWinners_ids {players : List Player} {st : String → Option Int}
    {e : String × Int} (he : e ∈ holeMinWinners players st) :
    e.1 ∈ players.map Player.id := by
  unfold holeMinWinners at he
  rcases hm : listMin ((holeEntries players st).map (·.2)) with _ | m
  · rw [hm] at he; cases he
  · rw [hm] at he
    exact mem_holeEntries_ids (List.mem_of_mem_filter he)

/-! ## The skins conservation invariant -/

theorem skinsStep_total (players : List Player) (st2 : Nat → String → Option Int)
    (hnd : (players.map Player.id).Nodup) {h : Nat}
    (hall : ∀ p ∈ players, (st2 h p.id).isSome = true)
    (w : String → Nat) (res : List SkinsHoleResult) (c : Nat) :
    sumOver (players.map Player.id) (skinsStep players st2 ⟨w, res, c⟩ h).skinsWon
      + (skinsStep players st2 ⟨w, res, c⟩ h).carry
    = sumOver (players.map Player.id) w + c + 1 := by
  have hlen : ¬ ((holeEntries players (st2 h)).length < players.length) := by
    rw [holeEntries_length_all players (st2 h) hall]
    omega
  unfold skinsStep skinsHole
  rcases hw : holeMinWinners players (st2 h) with _ | ⟨w0, ws⟩
  · simp only [hlen, if_false, hw]
    omega
  · rcases ws with _ | ⟨w1, ws'⟩
    · have hmem : w0.1 ∈ players.map Player.id :=
        mem_holeMinWinners_ids (by rw [hw]; exact List.mem_cons_self _ _)
      simp only [hlen, if_false, hw]
      rw [sumOver_updAdd w (1 + c) hnd hmem]
      omega
    · simp only [hlen, if_false, hw]
      omega

theorem skinsRun_total (players : List Player) (st2 : Nat → String → Option Int)
    (hnd : (players.map Player.id).Nodup) (hs : List Nat)
    (hall : ∀ h ∈ hs, ∀ p ∈ players, (st2 h p.id).isSome = true)
    (w : String → Nat) (res : List SkinsHoleResult) (c : Nat) :
    sumOver (players.map Player.id) ((hs.foldl (skinsStep players st2) ⟨w, res, c⟩)).skinsWon
      + ((hs.foldl (skinsStep players st2) ⟨w, res, c⟩)).carry
    = sumOver (players.map Player.id) w + c + hs.length := by
  induction hs generalizing w res c with
  | nil => simp
  | cons h hs ih =>
    simp only [List.foldl_cons]
    rw [show skinsStep players st2 ⟨w, res, c⟩ h =
      ⟨(skinsStep players st2 ⟨w, res, c⟩ h).skinsWon,
       (skinsStep players st2 ⟨w, res, c⟩ h).holeResults,
       (skinsStep players st2 ⟨w, res, c⟩ h).carry⟩ from rfl]
    rw [ih (fun h' hh' => hall h' (List.mem_cons_of_mem h hh'))]
    rw [skinsStep_total players st2 hnd (hall h (List.mem_cons_self h hs)) w res c]
    simp only [List.length_cons]
    omega

/-! ## Bridging lemma for the wolf hole results -/

theorem wolf_get_hole (r : Round) {n : Nat} (hn : n < 18) :
    (computeWolf r).holeResults[n]? =
      some (wolfHole r.players (r.strokesByHole (1 + n)) (r.wolfPartnerByHole (1 + n))
        (getWolfId r.players (r.wolfStartingIndex.getD 0) (1 + n))
        (r.wolfPointsPerHole.getD 1) (r.wolfLoneMultiplier.getD 2) (1 + n)) := by
  show (holes18.map _)[n]? = _
  rw [List.getElem?_map, holes18_get hn]
  rfl

/-! ## Example players and rounds used by the witnesses -/

def pA : Player := ⟨"A", "Alice"⟩
def pB : Player := ⟨"B", "Bob"⟩
def pC : Player := ⟨"C", "Cara"⟩
def pD : Player := ⟨"D", "Dan"⟩

/-- A round with every configuration absent and no strokes; the concrete
rounds below override individual fields. -/
def emptyRound : Round :=
  { players := [pA, pB]
    strokesByHole := fun _ _ => none
    wolfPointsPerHole := none
    wolfLoneMultiplier := none
    wolfStartingIndex := none
    wolfPartnerByHole := fun _ => none
    bbbAwardsByHole := fun _ => none }

/-- Two players, a stroke entered for both on all 18 holes (A always low). -/
def fullSkinsRound : Round :=
  { emptyRound with
      strokesByHole := fun _ pid =>
        if pid = "A" then some 4 else if pid = "B" then some 5 else none }

/-- Two players, strokes entered only on hole 1 (A low). -/
def oneHoleRound : Round :=
  { emptyRound with
      strokesByHole := fun h pid =>
        if h = 1 then (if pid = "A" then some 4 else if pid = "B" then some 5 else none)
        else none }

/-- Two players, no strokes entered at all. -/
def noStrokesRound : Round := emptyRound

/-! ## C3 -/

/-- C3: for a Skins round in which every player has a stroke on all 18
holes, the skins won across all players plus the final carry equal 18. -/
theorem skins_total_eighteen (r : Round)
    (hnd : (r.players.map Player.id).Nodup)
    (hall : ∀ h ∈ holes18, ∀ p ∈ r.players, (r.strokesByHole h p.id).isSome = true) :
    sumOver (r.players.map Player.id) (computeSkins r).skinsWon
      + (computeSkins r).carryToNext = 18 := by
  show sumOver _ (skinsRun r.players r.strokesByHole holes18).skinsWon
      + (skinsRun r.players r.strokesByHole holes18).carry = 18
  unfold skinsRun
  rw [skinsRun_total r.players r.strokesByHole hnd holes18 hall _ [] 0,
    sumOver_zero, holes18_length]

/-- Witness for C3 at a concrete fully-entered round. -/
theorem skins_total_eighteen_witness :
    sumOver (fullSkinsRound.players.map Player.id) (computeSkins fullSkinsRound).skinsWon
      + (computeSkins fullSkinsRound).carryToNext = 18 :=
  skins_total_eighteen fullSkinsRound (by decide) (by decide)

/-! ## C5 -/

/-- C5: on a hole where every player has an entered stroke, `computeSkins`
awards a unique low scorer `1 + carry` skins and resets the carry, and on
a shared minimum records no winner, the pre-hole carry, and increments
the carry. -/
theorem skins_hole_resolution (r : Round) {n : Nat} (hn : n < 18)
    (hall : ∀ p ∈ r.players, (r.strokesByHole (1 + n) p.id).isSome = true) :
    (∀ w, holeMinWinners r.players (r.strokesByHole (1 + n)) = [w] →
      (computeSkins r).holeResults[n]? =
          some ⟨1 + n, carryAt r n, some w.1, 1 + carryAt r n⟩
        ∧ carryAt r (n + 1) = 0)
    ∧ (2 ≤ (holeMinWinners r.players (r.strokesByHole (1 + n))).length →
      (computeSkins r).holeResults[n]? = some ⟨1 + n, carryAt r n, none, 0⟩
        ∧ carryAt r (n + 1) = carryAt r n + 1) := by
  obtain ⟨hget, hcarry⟩ := skins_get_hole r hn
  have hlen : ¬ ((holeEntries r.players (r.strokesByHole (1 + n))).length
      < r.players.length) := by
    rw [holeEntries_length_all _ _ hall]
    omega
  constructor
  · intro w hw
    simp only [skinsHole, if_neg hlen, hw] at hget hcarry
    exact ⟨hget, hcarry⟩
  · intro h2
    rcases hw : holeMinWinners r.players (r.strokesByHole (1 + n)) with _ | ⟨w0, ws⟩
    · rw [hw] at h2
      simp at h2
    · rcases ws with _ | ⟨w1, ws'⟩
      · rw [hw] at h2
        simp at h2
      · simp only [skinsHole, if_neg hlen, hw] at hget hcarry
        exact ⟨hget, hcarry⟩

/-- Witness for C5: hole 1 of the concrete round has the unique low
scorer A, who is awarded `1 + 0` skins, and the carry resets. -/
theorem skins_hole_resolution_witness :
    (computeSkins oneHoleRound).holeResults[0]? =
        some ⟨1, carryAt oneHoleRound 0, some "A", 1 + carryAt oneHoleRound 0⟩
      ∧ carryAt oneHoleRound 1 = 0 :=
  (skins_hole_resolution oneHoleRound (by omega) (by decide)).1 ("A", 4) (by decide)

/-! ## C6 -/

/-- C6: a hole with a missing stroke is handled totally: `computeSkins`
records an undecided result (no winner, zero skins, unchanged carry) and
`computeWolf` records an `incomplete` result with all-zero deltas. -/
theorem incomplete_hole_handling (r : Round) {n : Nat} (hn : n < 18)
    (hmiss : ∃ p ∈ r.players, r.strokesByHole (1 + n) p.id = none) :
    ((computeSkins r).holeResults[n]? = some ⟨1 + n, carryAt r n, none, 0⟩
      ∧ carryAt r (n + 1) = carryAt r n)
    ∧ ∃ hr, (computeWolf r).holeResults[n]? = some hr
        ∧ hr.status = WolfStatus.incomplete ∧ ∀ x, hr.delta x = 0 := by
  obtain ⟨p, hp, hnone⟩ := hmiss
  constructor
  · obtain ⟨hget, hcarry⟩ := skins_get_hole r hn
    have hlen : (holeEntries r.players (r.strokesByHole (1 + n))).length
        < r.players.length := holeEntries_length_lt r.players _ hp hnone
    simp only [skinsHole, if_pos hlen] at hget hcarry
    exact ⟨hget, hcarry⟩
  · have hnotall : ¬ (r.players.all (fun p => ((r.strokesByHole (1 + n)) p.id).isSome)
        = true) := by
      rw [List.all_eq_true]
      intro hco
      have := hco p hp
      rw [hnone] at this
      cases this
    refine ⟨_, wolf_get_hole r hn, ?_, ?_⟩
    · simp only [wolfHole, if_pos hnotall]
    · intro x
      simp only [wolfHole, if_pos hnotall]

/-- Witness for C6 (skins part) at a round with no strokes entered. -/
theorem incomplete_hole_handling_witness :
    (computeSkins noStrokesRound).holeResults[0]? =
        some ⟨1, carryAt noStrokesRound 0, none, 0⟩
      ∧ carryAt noStrokesRound 1 = carryAt noStrokesRound 0 :=
  (incomplete_hole_handling noStrokesRound (by omega)
    ⟨pA, by decide, by decide⟩).1

/-! ## Lemmas about the wolf hole deltas -/

theorem getWolfId_mem (players : List Player) (hne : players ≠ []) (start hole : Nat) :
    getWolfId players start hole ∈ players.map Player.id := by
  unfold getWolfId
  have hlt : (start + (hole - 1)) % players.length < players.length :=
    Nat.mod_lt _ (List.length_pos.mpr hne)
  rw [List.get?_eq_getElem?, List.getElem?_eq_getElem hlt]
  exact List.mem_map.mpr ⟨players[(start + (hole - 1)) % players.length],
    List.getElem_mem hlt, rfl⟩

theorem sumDeltaOver_lone (r : Round) (hnd : (r.players.map Player.id).Nodup)
    {wId : String} (hw : wId ∈ r.players.map Player.id) (d : Int) :
    sumDeltaOver r (updAdd (fun _ => 0) wId d) = d := by
  unfold sumDeltaOver
  rw [sumOver_updAdd _ d hnd hw, sumOver_zero, zero_add]

theorem sumDeltaOver_team (r : Round) (hnd : (r.players.map Player.id).Nodup)
    (h4 : r.players.length = 4) {wId pid : String}
    (hw : wId ∈ r.players.map Player.id) (hp : pid ∈ r.players.map Player.id)
    (hne : pid ≠ wId) (a b : Int) :
    sumDeltaOver r (addAll (addAll (fun _ => 0) [wId, pid] a)
      (wolfOtherTeam r.players wId pid) b) = 2 * a + 2 * b := by
  have hidlen : (r.players.map Player.id).length = 4 := by
    rw [List.length_map, h4]
  have hOTsub : ∀ k ∈ wolfOtherTeam r.players wId pid, k ∈ r.players.map Player.id :=
    fun k hk => (List.mem_filter.mp hk).1
  have hOTlen : (wolfOtherTeam r.players wId pid).length = 2 := by
    unfold wolfOtherTeam
    rw [length_filter_two hnd hw hp (fun e => hne e.symm), hidlen]
  have hWTsub : ∀ k ∈ [wId, pid], k ∈ r.players.map Player.id := by
    intro k hk
    rcases List.mem_cons.mp hk with h | h
    · rw [h]; exact hw
    · rcases List.mem_cons.mp h with h' | h'
      · rw [h']; exact hp
      · cases h'
  unfold sumDeltaOver
  rw [sumOver_addAll _ _ b hnd hOTsub, sumOver_addAll _ _ a hnd hWTsub,
    sumOver_zero, hOTlen]
  norm_num

/-- The fields of a lone-wolf hole result, by case analysis on its
branches: the partner is recorded as `null`, and on a win (resp. loss)
only the wolf's delta is set, to `pts * mult` (resp. its negation). -/
theorem wolfLone_shape (players : List Player) (st : String → Option Int) (wId : String)
    (pts mult : Int) (h : Nat) :
    (wolfLone players st wId pts mult h).wolfId = wId
    ∧ (wolfLone players st wId pts mult h).partnerId = none
    ∧ ((wolfLone players st wId pts mult h).status = WolfStatus.wolfWin →
        (wolfLone players st wId pts mult h).delta = updAdd (fun _ => 0) wId (pts * mult))
    ∧ ((wolfLone players st wId pts mult h).status = WolfStatus.wolfLose →
        (wolfLone players st wId pts mult h).delta
          = updAdd (fun _ => 0) wId (-(pts * mult))) := by
  unfold wolfLone
  split
  · exact ⟨rfl, rfl, fun _ => rfl, fun hc => WolfStatus.noConfusion hc⟩
  · split
    · exact ⟨rfl, rfl, fun _ => rfl, fun hc => WolfStatus.noConfusion hc⟩
    · split
      · exact ⟨rfl, rfl, fun hc => WolfStatus.noConfusion hc, fun _ => rfl⟩
      · exact ⟨rfl, rfl, fun hc => WolfStatus.noConfusion hc, fun hc => WolfStatus.noConfusion hc⟩

/-- The fields of a 2v2 hole result, by case analysis on its branches. -/
theorem wolfTeamHole_shape (players : List Player) (st : String → Option Int)
    (wId pid : String) (pts : Int) (h : Nat) :
    (wolfTeamHole players st wId pid pts h).wolfId = wId
    ∧ (wolfTeamHole players st wId pid pts h).partnerId = some pid
    ∧ ((wolfTeamHole players st wId pid pts h).status = WolfStatus.wolfWin →
        (wolfTeamHole players st wId pid pts h).delta
          = addAll (addAll (fun _ => 0) [wId, pid] pts) (wolfOtherTeam players wId pid) (-pts))
    ∧ ((wolfTeamHole players st wId pid pts h).status = WolfStatus.wolfLose →
        (wolfTeamHole players st wId pid pts h).delta
          = addAll (addAll (fun _ => 0) [wId, pid] (-pts))
              (wolfOtherTeam players wId pid) pts) := by
  unfold wolfTeamHole
  split
  · exact ⟨rfl, rfl, fun _ => rfl, fun hc => WolfStatus.noConfusion hc⟩
  · exact ⟨rfl, rfl, fun _ => rfl, fun hc => WolfStatus.noConfusion hc⟩
  · split
    · exact ⟨rfl, rfl, fun _ => rfl, fun hc => WolfStatus.noConfusion hc⟩
    · split
      · exact ⟨rfl, rfl, fun hc => WolfStatus.noConfusion hc, fun _ => rfl⟩
      · exact ⟨rfl, rfl, fun hc => WolfStatus.noConfusion hc, fun hc => WolfStatus.noConfusion hc⟩

/-- The three branches of a `computeWolf` hole: incomplete, lone wolf
(partner null, empty-string, or the wolf), or 2v2. -/
theorem wolfHole_branches (players : List Player) (st : String → Option Int)
    (cfg : Option String) (wId : String) (pts mult : Int) (h : Nat) :
    wolfHole players st cfg wId pts mult h
        = ⟨h, wId, cfg, WolfStatus.incomplete, fun _ => 0⟩
    ∨ wolfHole players st cfg wId pts mult h = wolfLone players st wId pts mult h
    ∨ ∃ pid, cfg = some pid ∧ ¬ (pid = "" ∨ pid = wId)
        ∧ wolfHole players st cfg wId pts mult h = wolfTeamHole players st wId pid pts h := by
  unfold wolfHole
  split
  · exact Or.inl rfl
  · split
    · exact Or.inr (Or.inl rfl)
    · next pid =>
        split
        · exact Or.inr (Or.inl rfl)
        · next hpw => exact Or.inr (Or.inr ⟨pid, rfl, hpw, rfl⟩)

/-! ## C1 -/

/-- Four players, defaults for every Wolf configuration, hole 1 entered
with the wolf (A) strictly best and no partner chosen: a lone-wolf win. -/
def loneWolfRound : Round :=
  { emptyRound with
      players := [pA, pB, pC, pD]
      strokesByHole := fun h pid =>
        if h = 1 then (if pid = "A" then some 3 else some 4) else none }

/-- The hole-1 result of `computeWolf` on `loneWolfRound`. -/
def loneWolfHole1 : WolfHoleResult :=
  wolfHole loneWolfRound.players (loneWolfRound.strokesByHole 1)
    (loneWolfRound.wolfPartnerByHole 1) (getWolfId loneWolfRound.players 0 1) 1 2 1

/-- C1 (counterexample): the claim fails in lone-wolf mode — on
`loneWolfRound`, hole 1 is a `wolfWin` whose per-player deltas sum to 2,
not 0, because only the wolf's own delta is recorded. -/
theorem wolf_delta_sum_counterexample :
    ¬ (∀ (i : Nat) (hr : WolfHoleResult),
        (computeWolf loneWolfRound).holeResults[i]? = some hr →
        (hr.status = WolfStatus.wolfWin ∨ hr.status = WolfStatus.wolfLose) →
        sumDeltaOver loneWolfRound hr.delta = 0) := by
  intro hcl
  have hg : (computeWolf loneWolfRound).holeResults[0]? = some loneWolfHole1 := rfl
  have h0 := hcl 0 loneWolfHole1 hg (Or.inl (by decide))
  exact absurd h0 (by decide)

/-- C1 (amended): in a valid 4-player Wolf round (distinct player ids,
every configured partner one of the players), every hole marked
`wolfWin`/`wolfLose` that was played 2v2 (a partner is recorded) has
per-player point deltas summing to 0; on a lone-wolf hole only the
wolf's own delta is recorded, so the deltas sum to the wolf's recorded
delta instead of 0. -/
theorem wolf_delta_sum_amended (r : Round)
    (hnd : (r.players.map Player.id).Nodup)
    (h4 : r.players.length = 4)
    (hpart : partnerOk r = true) :
    ∀ (i : Nat) (hr : WolfHoleResult), (computeWolf r).holeResults[i]? = some hr →
      (hr.status = WolfStatus.wolfWin ∨ hr.status = WolfStatus.wolfLose) →
      (∀ pid, hr.partnerId = some pid → sumDeltaOver r hr.delta = 0)
      ∧ (hr.partnerId = none → sumDeltaOver r hr.delta = hr.delta hr.wolfId) := by
  intro i hr hget hstat
  have hne : r.players ≠ [] := by
    intro h
    rw [h] at h4
    cases h4
  have hi : i < 18 := by
    by_contra hcon
    have hlen : (computeWolf r).holeResults.length = 18 := by
      show (holes18.map _).length = 18
      rw [List.length_map, holes18_length]
    rw [List.getElem?_eq_none (by omega)] at hget
    cases hget
  rw [wolf_get_hole r hi] at hget
  have hhr : hr = wolfHole r.players (r.strokesByHole (1 + i)) (r.wolfPartnerByHole (1 + i))
      (getWolfId r.players (r.wolfStartingIndex.getD 0) (1 + i))
      (r.wolfPointsPerHole.getD 1) (r.wolfLoneMultiplier.getD 2) (1 + i) :=
    (Option.some.injEq _ _ ▸ hget).symm
  have hwmem : getWolfId r.players (r.wolfStartingIndex.getD 0) (1 + i)
      ∈ r.players.map Player.id := getWolfId_mem r.players hne _ _
  rcases wolfHole_branches r.players (r.strokesByHole (1 + i)) (r.wolfPartnerByHole (1 + i))
      (getWolfId r.players (r.wolfStartingIndex.getD 0) (1 + i))
      (r.wolfPointsPerHole.getD 1) (r.wolfLoneMultiplier.getD 2) (1 + i)
    with hb | hb | ⟨pid, hcfg, hpw, hb⟩
  · -- incomplete: contradicts the status hypothesis
    rw [hhr, hb] at hstat
    rcases hstat with h' | h' <;> exact WolfStatus.noConfusion h'
  · -- lone wolf
    obtain ⟨hwid, hpart', hwin, hlose⟩ := wolfLone_shape r.players (r.strokesByHole (1 + i))
      (getWolfId r.players (r.wolfStartingIndex.getD 0) (1 + i))
      (r.wolfPointsPerHole.getD 1) (r.wolfLoneMultiplier.getD 2) (1 + i)
    rw [hhr, hb]
    rw [hhr, hb] at hstat
    constructor
    · intro pid hpid
      rw [hpart'] at hpid
      cases hpid
    · intro _
      rcases hstat with hs | hs
      · rw [hwin hs, hwid, sumDeltaOver_lone r hnd hwmem, updAdd_apply_self, zero_add]
      · rw [hlose hs, hwid, sumDeltaOver_lone r hnd hwmem, updAdd_apply_self, zero_add]
  · -- 2v2
    obtain ⟨hwid, hpart', hwin, hlose⟩ := wolfTeamHole_shape r.players
      (r.strokesByHole (1 + i))
      (getWolfId r.players (r.wolfStartingIndex.getD 0) (1 + i)) pid
      (r.wolfPointsPerHole.getD 1) (1 + i)
    have hpmem : pid ∈ r.players.map Player.id := by
      have hmem1 : (1 + i) ∈ holes18 := holes18_mem.mpr ⟨by omega, by omega⟩
      have := (List.all_eq_true.mp hpart) (1 + i) hmem1
      rw [hcfg] at this
      simpa using this
    have hpw' : pid ≠ getWolfId r.players (r.wolfStartingIndex.getD 0) (1 + i) :=
      fun e => hpw (Or.inr e)
    rw [hhr, hb]
    rw [hhr, hb] at hstat
    constructor
    · intro pid' hpid'
      rcases hstat with hs | hs
      · rw [hwin hs, sumDeltaOver_team r hnd h4 hwmem hpmem hpw']
        ring
      · rw [hlose hs, sumDeltaOver_team r hnd h4 hwmem hpmem hpw']
        ring
    · intro hnone
      rw [hpart'] at hnone
      cases hnone

/-- Witness for the amended C1 on a concrete 2v2 hole: B partners the
wolf A, the hole is decided, and the deltas sum to 0. -/
def teamWolfRound : Round :=
  { loneWolfRound with wolfPartnerByHole := fun h => if h = 1 then some "B" else none }

/-- The hole-1 result of `computeWolf` on `teamWolfRound`. -/
def teamWolfHole1 : WolfHoleResult :=
  wolfHole teamWolfRound.players (teamWolfRound.strokesByHole 1)
    (teamWolfRound.wolfPartnerByHole 1) (getWolfId teamWolfRound.players 0 1) 1 2 1

/-- Witness for the amended C1 at a concrete team-mode hole. -/
theorem wolf_delta_sum_amended_witness :
    sumDeltaOver teamWolfRound teamWolfHole1.delta = 0 :=
  ((wolf_delta_sum_amended teamWolfRound (by decide) (by decide) (by decide)
    0 teamWolfHole1 rfl (Or.inl (by decide))).1) "B" (by decide)

/-! ## C10 -/

/-- C10: with all three Wolf configuration fields absent, `computeWolf`
behaves exactly as with `pointsPerHole = 1`, `loneMultiplier = 2` and
starting index `0`; in particular the wolf of hole `h = i + 1` is
`players[(h − 1) % playerCount]`. -/
theorem wolf_default_config (r : Round)
    (h1 : r.wolfPointsPerHole = none) (h2 : r.wolfLoneMultiplier = none)
    (h3 : r.wolfStartingIndex = none) (hne : r.players ≠ []) :
    computeWolf r = computeWolf { r with
        wolfPointsPerHole := some 1
        wolfLoneMultiplier := some 2
        wolfStartingIndex := some 0 }
    ∧ ∀ i : Nat, i < 18 →
        ∃ p, r.players.get? (i % r.players.length) = some p
          ∧ ((computeWolf r).holeResults[i]?).map WolfHoleResult.wolfId = some p.id := by
  constructor
  · unfold computeWolf
    rw [h1, h2, h3]
    rfl
  · intro i hi
    have hlt : i % r.players.length < r.players.length :=
      Nat.mod_lt _ (List.length_pos.mpr hne)
    refine ⟨r.players[i % r.players.length], ?_, ?_⟩
    · rw [List.get?_eq_getElem?, List.getElem?_eq_getElem hlt]
    · rw [wolf_get_hole r hi]
      have hwid := wolfHole_branches r.players (r.strokesByHole (1 + i))
        (r.wolfPartnerByHole (1 + i))
        (getWolfId r.players (r.wolfStartingIndex.getD 0) (1 + i))
        (r.wolfPointsPerHole.getD 1) (r.wolfLoneMultiplier.getD 2) (1 + i)
      have hgw : getWolfId r.players (r.wolfStartingIndex.getD 0) (1 + i)
          = r.players[i % r.players.length].id := by
        rw [h3]
        unfold getWolfId
        have harith : (Option.getD (none : Option Nat) 0) + (1 + i - 1) = i := by
          simp
        rw [harith, List.get?_eq_getElem?, List.getElem?_eq_getElem hlt]
        rfl
      rcases hwid with hb | hb | ⟨pid, _, _, hb⟩
      · rw [hb]
        simp only [Option.map_some']
        rw [← hgw]
      · obtain ⟨hwid', _, _, _⟩ := wolfLone_shape r.players (r.strokesByHole (1 + i))
          (getWolfId r.players (r.wolfStartingIndex.getD 0) (1 + i))
          (r.wolfPointsPerHole.getD 1) (r.wolfLoneMultiplier.getD 2) (1 + i)
        rw [hb]
        simp only [Option.map_some']
        rw [hwid', hgw]
      · obtain ⟨hwid', _, _, _⟩ := wolfTeamHole_shape r.players (r.strokesByHole (1 + i))
          (getWolfId r.players (r.wolfStartingIndex.getD 0) (1 + i)) pid
          (r.wolfPointsPerHole.getD 1) (1 + i)
        rw [hb]
        simp only [Option.map_some']
        rw [hwid', hgw]

/-- Witness for C10: `loneWolfRound` has no Wolf configuration, and its
summary coincides with the explicitly-defaulted round's. -/
theorem wolf_default_config_witness :
    computeWolf loneWolfRound = computeWolf { loneWolfRound with
      wolfPointsPerHole := some 1
      wolfLoneMultiplier := some 2
      wolfStartingIndex := some 0 } :=
  (wolf_default_config loneWolfRound rfl rfl rfl (by decide)).1

/-! ## Lemmas about the BBB scan -/

theorem bbbScan_through (players : List Player) (awards : Nat → Option BBBHoleAwards) :
    ∀ (n s t : Nat) (pts : String → Nat), t + 1 = s →
      (bbbScan players awards (List.range' s n) t pts).1
        = t + ((List.range' s n).takeWhile (fun h => (awards h).isSome)).length := by
  intro n
  induction n with
  | zero => intro s t pts _; simp [bbbScan]
  | succ n ih =>
    intro s t pts hts
    rw [List.range'_succ]
    cases haw : awards s with
    | none =>
        simp [bbbScan, haw, List.takeWhile_cons]
    | some a =>
        have hrec : bbbScan players awards (s :: List.range' (s + 1) n) t pts
            = bbbScan players awards (List.range' (s + 1) n) s
                (bbbApplyAward players pts a) := by
          simp [bbbScan, haw]
        rw [hrec, ih (s + 1) s (bbbApplyAward players pts a) rfl,
          List.takeWhile_cons]
        simp [haw]
        omega

theorem mem_take_range' (s n k h : Nat) (hm : h ∈ (List.range' s n).take k) :
    h < s + k := by
  induction n generalizing s k with
  | zero => simp at hm
  | succ n ih =>
    cases k with
    | zero => simp at hm
    | succ k =>
      rw [List.range'_succ] at hm
      simp only [List.take_succ_cons] at hm
      rcases List.mem_cons.mp hm with h' | h'
      · omega
      · have := ih (s + 1) k h'
        omega

theorem bbbScan_congr (players : List Player)
    (awards awards' : Nat → Option BBBHoleAwards) :
    ∀ (hs : List Nat) (t : Nat) (pts : String → Nat),
      (∀ h ∈ hs.take ((hs.takeWhile (fun x => (awards x).isSome)).length + 1),
        awards h = awards' h) →
      bbbScan players awards hs t pts = bbbScan players awards' hs t pts := by
  intro hs
  induction hs with
  | nil => intro t pts _; rfl
  | cons h hs ih =>
    intro t pts hagree
    have hh : awards h = awards' h := by
      apply hagree
      cases hk : (((h :: hs).takeWhile (fun x => (awards x).isSome)).length + 1) with
      | zero => omega
      | succ k =>
          rw [List.take_succ_cons]
          exact List.mem_cons_self h _
    cases haw : awards h with
    | none =>
        have haw' : awards' h = none := by rw [← hh, haw]
        simp [bbbScan, haw, haw']
    | some a =>
        have haw' : awards' h = some a := by rw [← hh, haw]
        have htw : (h :: hs).takeWhile (fun x => (awards x).isSome)
            = h :: hs.takeWhile (fun x => (awards x).isSome) := by
          rw [List.takeWhile_cons]
          simp [haw]
        have hrec : ∀ aw : Nat → Option BBBHoleAwards, aw h = some a →
            bbbScan players aw (h :: hs) t pts
              = bbbScan players aw hs h (bbbApplyAward players pts a) := by
          intro aw hawx
          simp [bbbScan, hawx]
        rw [hrec awards haw, hrec awards' haw']
        apply ih
        intro x hx
        apply hagree
        rw [htw]
        simp only [List.length_cons, List.take_succ_cons]
        exact List.mem_cons_of_mem h hx

/-! ## C8 -/

/-- Shared helper: the `through` of `computeBBB` is the length of the
longest all-recorded prefix of holes 1..18. -/
theorem computeBBB_through_eq (r : Round) :
    (computeBBB r).through
      = (holes18.takeWhile (fun h => (r.bbbAwardsByHole h).isSome)).length := by
  show (bbbScan r.players r.bbbAwardsByHole holes18 0 (fun _ => 0)).1 = _
  unfold holes18
  rw [bbbScan_through r.players r.bbbAwardsByHole 18 1 0 (fun _ => 0) rfl]
  simp

/-- C8: the `through` value of `computeBBB` is the length of the longest
all-recorded prefix of holes 1..18 — the contiguous forward scan of the
spec; in particular a record with all-null slots still counts and
`through = 0` when hole 1 has no record. -/
theorem bbb_through_scan (r : Round) :
    (computeBBB r).through = throughSpecScan r.bbbAwardsByHole :=
  computeBBB_through_eq r

/-! ## C9 -/

/-- C9: the points of `computeBBB` depend only on the award records up to
the first gap: two rounds with the same players that agree on the award
records of holes 1..`through + 1` produce identical `pointsByPlayer` (and
`through`), while `holeAwards` returns the raw map, gap or not. -/
theorem bbb_points_stop_at_gap (r r' : Round)
    (hp : r.players = r'.players)
    (hagree : ∀ h : Nat, h ≤ (computeBBB r).through + 1 →
        r.bbbAwardsByHole h = r'.bbbAwardsByHole h) :
    (computeBBB r).pointsByPlayer = (computeBBB r').pointsByPlayer
    ∧ (computeBBB r).through = (computeBBB r').through
    ∧ (computeBBB r).holeAwards = r.bbbAwardsByHole := by
  have hL : (computeBBB r).through
      = (holes18.takeWhile (fun x => (r.bbbAwardsByHole x).isSome)).length :=
    computeBBB_through_eq r
  have hscan : bbbScan r.players r.bbbAwardsByHole holes18 0 (fun _ => 0)
      = bbbScan r.players r'.bbbAwardsByHole holes18 0 (fun _ => 0) := by
    apply bbbScan_congr
    intro h hx
    apply hagree
    have := mem_take_range' 1 18
      ((holes18.takeWhile (fun x => (r.bbbAwardsByHole x).isSome)).length + 1) h hx
    omega
  have hmain : computeBBB r = { computeBBB r' with holeAwards := r.bbbAwardsByHole } := by
    unfold computeBBB
    rw [hscan, hp]
  refine ⟨?_, ?_, rfl⟩
  · rw [hmain]
  · rw [hmain]

/-- Hole 1 recorded, gap at hole 2, a stray record at hole 5. -/
def bbbGapRound : Round :=
  { emptyRound with
      bbbAwardsByHole := fun h =>
        if h = 1 then some ⟨some "A", none, none⟩
        else if h = 5 then some ⟨some "B", some "B", none⟩
        else none }

/-- The same round with the stray hole-5 record removed. -/
def bbbGapRoundTrimmed : Round :=
  { emptyRound with
      bbbAwardsByHole := fun h =>
        if h = 1 then some ⟨some "A", none, none⟩ else none }

/-- Witness for C9: the stray hole-5 record beyond the gap contributes no
points — both rounds score identically. -/
theorem bbb_points_stop_at_gap_witness :
    (computeBBB bbbGapRound).pointsByPlayer
      = (computeBBB bbbGapRoundTrimmed).pointsByPlayer :=
  (bbb_points_stop_at_gap bbbGapRound bbbGapRoundTrimmed rfl
    (by decide)).1

/-! ## Lemmas about the netting loop -/

/-- Per-player signed total of an entry list (credit/debit still held by
player id `x`). -/
def sumFor (l : List (Player × Int)) (x : String) : Int :=
  (l.map (fun e => if e.1.id = x then e.2 else 0)).sum

theorem netLoop_nil_left (cs : List (Player × Int)) : netLoop [] cs = [] := by
  rw [netLoop]
  exact fun _ _ _ _ _ _ h _ => List.noConfusion h

theorem netLoop_nil_right (ds : List (Player × Int)) : netLoop ds [] = [] := by
  cases ds with
  | nil =>
      rw [netLoop]
      exact fun _ _ _ _ _ _ h _ => List.noConfusion h
  | cons d ds =>
      rw [netLoop]
      exact fun _ _ _ _ _ _ _ h => List.noConfusion h

theorem netLoop_eq_a {dp : Player} {dn : Int} {ds : List (Player × Int)}
    {cp : Player} {cn : Int} {cs : List (Player × Int)}
    (h : 0 < min (-dn) cn) (h0 : dn + min (-dn) cn = 0) (hcn : cn - min (-dn) cn = 0) :
    netLoop ((dp, dn) :: ds) ((cp, cn) :: cs)
      = ⟨dp, cp, min (-dn) cn⟩ :: netLoop ds cs := by
  rw [netLoop]
  simp only [if_pos h, if_pos h0, if_pos hcn]

theorem netLoop_eq_b {dp : Player} {dn : Int} {ds : List (Player × Int)}
    {cp : Player} {cn : Int} {cs : List (Player × Int)}
    (h : 0 < min (-dn) cn) (h0 : dn + min (-dn) cn = 0) (hcn : ¬ cn - min (-dn) cn = 0) :
    netLoop ((dp, dn) :: ds) ((cp, cn) :: cs)
      = ⟨dp, cp, min (-dn) cn⟩ :: netLoop ds ((cp, cn - min (-dn) cn) :: cs) := by
  rw [netLoop]
  simp only [if_pos h, if_pos h0, if_neg hcn]

theorem netLoop_eq_c {dp : Player} {dn : Int} {ds : List (Player × Int)}
    {cp : Player} {cn : Int} {cs : List (Player × Int)}
    (h : 0 < min (-dn) cn) (h0 : ¬ dn + min (-dn) cn = 0) :
    netLoop ((dp, dn) :: ds) ((cp, cn) :: cs)
      = ⟨dp, cp, min (-dn) cn⟩ :: netLoop ((dp, dn + min (-dn) cn) :: ds) cs := by
  rw [netLoop]
  simp only [if_pos h, if_neg h0]

theorem netLoop_eq_d {dp : Player} {dn : Int} {ds : List (Player × Int)}
    {cp : Player} {cn : Int} {cs : List (Player × Int)}
    (h : ¬ 0 < min (-dn) cn) (h0 : dn = 0) (hcn : cn = 0) :
    netLoop ((dp, dn) :: ds) ((cp, cn) :: cs) = netLoop ds cs := by
  rw [netLoop]
  simp only [if_neg h, if_pos h0, if_pos hcn]

theorem netLoop_eq_e {dp : Player} {dn : Int} {ds : List (Player × Int)}
    {cp : Player} {cn : Int} {cs : List (Player × Int)}
    (h : ¬ 0 < min (-dn) cn) (h0 : dn = 0) (hcn : ¬ cn = 0) :
    netLoop ((dp, dn) :: ds) ((cp, cn) :: cs) = netLoop ds ((cp, cn) :: cs) := by
  rw [netLoop]
  simp only [if_neg h, if_pos h0, if_neg hcn]

theorem netLoop_eq_f {dp : Player} {dn : Int} {ds : List (Player × Int)}
    {cp : Player} {cn : Int} {cs : List (Player × Int)}
    (h : ¬ 0 < min (-dn) cn) (h0 : ¬ dn = 0) (hcn : cn = 0) :
    netLoop ((dp, dn) :: ds) ((cp, cn) :: cs) = netLoop ((dp, dn) :: ds) cs := by
  rw [netLoop]
  simp only [if_neg h, if_neg h0, if_pos hcn]

theorem netLoop_eq_g {dp : Player} {dn : Int} {ds : List (Player × Int)}
    {cp : Player} {cn : Int} {cs : List (Player × Int)}
    (h : ¬ 0 < min (-dn) cn) (h0 : ¬ dn = 0) (hcn : ¬ cn = 0) :
    netLoop ((dp, dn) :: ds) ((cp, cn) :: cs) = [] := by
  rw [netLoop]
  simp only [if_neg h, if_neg h0, if_neg hcn]

theorem netLoop_length_le : ∀ (N : Nat) (ds cs : List (Player × Int)),
    ds.length + cs.length ≤ N →
    (netLoop ds cs).length ≤ ds.length + cs.length - 1 := by
  intro N
  induction N with
  | zero =>
      intro ds cs hN
      rcases ds with _ | ⟨d, ds⟩
      · rw [netLoop_nil_left]; simp
      · simp at hN
  | succ N ih =>
      intro ds cs hN
      rcases ds with _ | ⟨⟨dp, dn⟩, ds⟩
      · rw [netLoop_nil_left]; simp
      · rcases cs with _ | ⟨⟨cp, cn⟩, cs⟩
        · rw [netLoop_nil_right]; simp
        · simp only [List.length_cons] at hN
          by_cases hpay : 0 < min (-dn) cn
          · by_cases h0 : dn + min (-dn) cn = 0
            · by_cases hcn : cn - min (-dn) cn = 0
              · rw [netLoop_eq_a hpay h0 hcn]
                have := ih ds cs (by omega)
                simp only [List.length_cons]
                omega
              · rw [netLoop_eq_b hpay h0 hcn]
                have := ih ds ((cp, cn - min (-dn) cn) :: cs) (by simp; omega)
                simp only [List.length_cons] at *
                omega
            · rw [netLoop_eq_c hpay h0]
              have := ih ((dp, dn + min (-dn) cn) :: ds) cs (by simp; omega)
              simp only [List.length_cons] at *
              omega
          · by_cases h0 : dn = 0
            · by_cases hcn : cn = 0
              · rw [netLoop_eq_d hpay h0 hcn]
                have := ih ds cs (by omega)
                simp only [List.length_cons]
                omega
              · rw [netLoop_eq_e hpay h0 hcn]
                have := ih ds ((cp, cn) :: cs) (by simp; omega)
                simp only [List.length_cons] at *
                omega
            · by_cases hcn : cn = 0
              · rw [netLoop_eq_f hpay h0 hcn]
                have := ih ((dp, dn) :: ds) cs (by simp; omega)
                simp only [List.length_cons] at *
                omega
              · rw [netLoop_eq_g hpay h0 hcn]
                simp

theorem netLoop_endpoints (P Q : Player → Prop) : ∀ (N : Nat) (ds cs : List (Player × Int)),
    ds.length + cs.length ≤ N →
    (∀ e ∈ ds, P e.1) → (∀ e ∈ cs, Q e.1) →
    ∀ l ∈ netLoop ds cs, P l.fromPlayer ∧ Q l.toPlayer := by
  intro N
  induction N with
  | zero =>
      intro ds cs hN hd hc l hl
      rcases ds with _ | ⟨d, ds⟩
      · rw [netLoop_nil_left] at hl; cases hl
      · simp at hN
  | succ N ih =>
      intro ds cs hN hd hc l hl
      rcases ds with _ | ⟨⟨dp, dn⟩, ds⟩
      · rw [netLoop_nil_left] at hl; cases hl
      · rcases cs with _ | ⟨⟨cp, cn⟩, cs⟩
        · rw [netLoop_nil_right] at hl; cases hl
        · simp only [List.length_cons] at hN
          have hdp : P dp := hd (dp, dn) (List.mem_cons_self _ _)
          have hcp : Q cp := hc (cp, cn) (List.mem_cons_self _ _)
          have hd' : ∀ e ∈ ds, P e.1 := fun e he => hd e (List.mem_cons_of_mem _ he)
          have hc' : ∀ e ∈ cs, Q e.1 := fun e he => hc e (List.mem_cons_of_mem _ he)
          by_cases hpay : 0 < min (-dn) cn
          · by_cases h0 : dn + min (-dn) cn = 0
            · by_cases hcn : cn - min (-dn) cn = 0
              · rw [netLoop_eq_a hpay h0 hcn] at hl
                rcases List.mem_cons.mp hl with h | h
                · rw [h]; exact ⟨hdp, hcp⟩
                · exact ih ds cs (by omega) hd' hc' l h
              · rw [netLoop_eq_b hpay h0 hcn] at hl
                rcases List.mem_cons.mp hl with h | h
                · rw [h]; exact ⟨hdp, hcp⟩
                · refine ih ds ((cp, cn - min (-dn) cn) :: cs) (by simp; omega) hd' ?_ l h
                  intro e he
                  rcases List.mem_cons.mp he with h' | h'
                  · rw [h']; exact hcp
                  · exact hc' e h'
            · rw [netLoop_eq_c hpay h0] at hl
              rcases List.mem_cons.mp hl with h | h
              · rw [h]; exact ⟨hdp, hcp⟩
              · refine ih ((dp, dn + min (-dn) cn) :: ds) cs (by simp; omega) ?_ hc' l h
                intro e he
                rcases List.mem_cons.mp he with h' | h'
                · rw [h']; exact hdp
                · exact hd' e h'
          · by_cases h0 : dn = 0
            · by_cases hcn : cn = 0
              · rw [netLoop_eq_d hpay h0 hcn] at hl
                exact ih ds cs (by omega) hd' hc' l hl
              · rw [netLoop_eq_e hpay h0 hcn] at hl
                refine ih ds ((cp, cn) :: cs) (by simp; omega) hd' ?_ l hl
                intro e he
                rcases List.mem_cons.mp he with h' | h'
                · rw [h']; exact hcp
                · exact hc' e h'
            · by_cases hcn : cn = 0
              · rw [netLoop_eq_f hpay h0 hcn] at hl
                refine ih ((dp, dn) :: ds) cs (by simp; omega) ?_ hc' l hl
                intro e he
                rcases List.mem_cons.mp he with h' | h'
                · rw [h']; exact hdp
                · exact hd' e h'
              · rw [netLoop_eq_g hpay h0 hcn] at hl
                cases hl

theorem sum_all_neg {l : List Int} (h : ∀ v ∈ l, v < 0) (hne : l ≠ []) : l.sum < 0 := by
  induction l with
  | nil => exact absurd rfl hne
  | cons a l ih =>
    rw [List.sum_cons]
    have ha : a < 0 := h a (List.mem_cons_self _ _)
    rcases l with _ | ⟨b, l⟩
    · simpa using ha
    · have := ih (fun v hv => h v (List.mem_cons_of_mem _ hv)) (by simp)
      omega

theorem paidTo_cons (l : SettlementLine) (ls : List SettlementLine) (x : String) :
    paidTo (l :: ls) x = (if l.toPlayer.id = x then l.amountCents else 0) + paidTo ls x := by
  simp [paidTo]

theorem paidBy_cons (l : SettlementLine) (ls : List SettlementLine) (x : String) :
    paidBy (l :: ls) x = (if l.fromPlayer.id = x then l.amountCents else 0) + paidBy ls x := by
  simp [paidBy]

theorem sumFor_cons (e : Player × Int) (l : List (Player × Int)) (x : String) :
    sumFor (e :: l) x = (if e.1.id = x then e.2 else 0) + sumFor l x := by
  simp [sumFor]

/-- The netting loop reconciles exactly: on strictly-signed, zero-summing
debtor/creditor lists, each player's inflow minus outflow over the
emitted lines equals their total entry balance. -/
theorem netLoop_recon : ∀ (N : Nat) (ds cs : List (Player × Int)),
    ds.length + cs.length ≤ N →
    (∀ e ∈ ds, e.2 < 0) → (∀ e ∈ cs, 0 < e.2) →
    (ds.map (fun e => e.2)).sum + (cs.map (fun e => e.2)).sum = 0 →
    ∀ x, paidTo (netLoop ds cs) x - paidBy (netLoop ds cs) x
      = sumFor cs x + sumFor ds x := by
  intro N
  induction N with
  | zero =>
      intro ds cs hN hd hc hz x
      rcases ds with _ | ⟨d, ds⟩
      · rcases cs with _ | ⟨c, cs⟩
        · rw [netLoop_nil_left]
          simp [paidTo, paidBy, sumFor]
        · simp at hN
      · simp at hN
  | succ N ih =>
      intro ds cs hN hd hc hz x
      rcases ds with _ | ⟨⟨dp, dn⟩, ds⟩
      · -- no debtors: the all-positive creditors must be empty as well
        rcases cs with _ | ⟨⟨cp, cn⟩, cs⟩
        · rw [netLoop_nil_left]
          simp [paidTo, paidBy, sumFor]
        · exfalso
          simp only [List.map_nil, List.sum_nil, zero_add] at hz
          have hpos : 0 < (((cp, cn) :: cs).map (fun e => e.2)).sum := by
            apply List.sum_pos
            · intro v hv
              obtain ⟨e, he, rfl⟩ := List.mem_map.mp hv
              exact hc e he
            · simp
          omega
      · rcases cs with _ | ⟨⟨cp, cn⟩, cs⟩
        · -- no creditors: the all-negative debtors must be empty as well
          exfalso
          simp only [List.map_nil, List.sum_nil, add_zero] at hz
          have hneg : (((dp, dn) :: ds).map (fun e => e.2)).sum < 0 := by
            apply sum_all_neg
            · intro v hv
              obtain ⟨e, he, rfl⟩ := List.mem_map.mp hv
              exact hd e he
            · simp
          omega
        · simp only [List.length_cons] at hN
          have hdn : dn < 0 := hd (dp, dn) (List.mem_cons_self _ _)
          have hcn : 0 < cn := hc (cp, cn) (List.mem_cons_self _ _)
          have hd' : ∀ e ∈ ds, e.2 < 0 := fun e he => hd e (List.mem_cons_of_mem _ he)
          have hc' : ∀ e ∈ cs, 0 < e.2 := fun e he => hc e (List.mem_cons_of_mem _ he)
          have hpay : 0 < min (-dn) cn := lt_min (by omega) hcn
          have hple : min (-dn) cn ≤ -dn := min_le_left _ _
          have hpce : min (-dn) cn ≤ cn := min_le_right _ _
          have hchoice : min (-dn) cn = -dn ∨ min (-dn) cn = cn := min_choice _ _
          simp only [List.map_cons, List.sum_cons] at hz
          by_cases h0 : dn + min (-dn) cn = 0
          · by_cases hcz : cn - min (-dn) cn = 0
            · rw [netLoop_eq_a hpay h0 hcz]
              have hih := ih ds cs (by omega) hd' hc' (by omega) x
              rw [paidTo_cons, paidBy_cons, sumFor_cons, sumFor_cons]
              simp only at hih ⊢
              split_ifs <;> omega
            · rw [netLoop_eq_b hpay h0 hcz]
              have hih := ih ds ((cp, cn - min (-dn) cn) :: cs) (by simp; omega) hd'
                (by
                  intro e he
                  rcases List.mem_cons.mp he with h' | h'
                  · rw [h']; simp; omega
                  · exact hc' e h')
                (by simp; omega) x
              rw [paidTo_cons, paidBy_cons, sumFor_cons, sumFor_cons]
              rw [sumFor_cons] at hih
              simp only at hih ⊢
              split_ifs at hih ⊢ <;> omega
          · have hpc : min (-dn) cn = cn := by omega
            rw [netLoop_eq_c hpay h0]
            have hih := ih ((dp, dn + min (-dn) cn) :: ds) cs (by simp; omega)
              (by
                intro e he
                rcases List.mem_cons.mp he with h' | h'
                · rw [h']; simp; omega
                · exact hd' e h')
              hc' (by simp; omega) x
            rw [paidTo_cons, paidBy_cons, sumFor_cons, sumFor_cons]
            rw [sumFor_cons] at hih
            simp only at hih ⊢
            split_ifs at hih ⊢ <;> omega

/-! ## Relating the filtered entry lists to the original balances -/

theorem split_sum_sign (l : List (Player × Int)) :
    ((l.filter (fun x => 0 < x.2)).map (fun e => e.2)).sum
      + ((l.filter (fun x => x.2 < 0)).map (fun e => e.2)).sum
    = (l.map (fun e => e.2)).sum := by
  induction l with
  | nil => simp
  | cons e l ih =>
    simp only [List.filter_cons, List.map_cons, List.sum_cons]
    by_cases h1 : 0 < e.2
    · rw [if_pos (by simpa using h1), if_neg (by simp; omega)]
      simp only [List.map_cons, List.sum_cons]
      omega
    · by_cases h2 : e.2 < 0
      · rw [if_neg (by simpa using h1), if_pos (by simpa using h2)]
        simp only [List.map_cons, List.sum_cons]
        omega
      · rw [if_neg (by simpa using h1), if_neg (by simpa using h2)]
        omega

theorem split_sumFor_sign (l : List (Player × Int)) (x : String) :
    sumFor (l.filter (fun e => 0 < e.2)) x + sumFor (l.filter (fun e => e.2 < 0)) x
    = sumFor l x := by
  induction l with
  | nil => simp [sumFor]
  | cons e l ih =>
    simp only [List.filter_cons, sumFor_cons]
    by_cases h1 : 0 < e.2
    · rw [if_pos (by simpa using h1), if_neg (by simp; omega)]
      rw [sumFor_cons]
      split_ifs <;> omega
    · by_cases h2 : e.2 < 0
      · rw [if_neg (by simpa using h1), if_pos (by simpa using h2)]
        rw [sumFor_cons]
        split_ifs <;> omega
      · have he : e.2 = 0 := by omega
        rw [if_neg (by simpa using h1), if_neg (by simpa using h2)]
        split_ifs <;> omega

theorem sumFor_zero_of_not_mem (ps : List Player) (net : String → Int) (x : String)
    (hx : ∀ q ∈ ps, q.id ≠ x) :
    sumFor (ps.map (fun q => (q, net q.id))) x = 0 := by
  induction ps with
  | nil => simp [sumFor]
  | cons q ps ih =>
    simp only [List.map_cons, sumFor_cons]
    rw [if_neg (hx q (List.mem_cons_self _ _)),
      ih (fun q' hq' => hx q' (List.mem_cons_of_mem _ hq'))]
    simp

theorem sumFor_entries (players : List Player) (net : String → Int) {p : Player}
    (hp : p ∈ players) (hnd : (players.map Player.id).Nodup) :
    sumFor (players.map (fun q => (q, net q.id))) p.id = net p.id := by
  induction players with
  | nil => cases hp
  | cons q ps ih =>
    have hnd' : (q.id :: ps.map Player.id).Nodup := by simpa using hnd
    have hq : q.id ∉ ps.map Player.id := (List.nodup_cons.mp hnd').1
    have hps : (ps.map Player.id).Nodup := (List.nodup_cons.mp hnd').2
    simp only [List.map_cons, sumFor_cons]
    rcases List.mem_cons.mp hp with h | h
    · rw [h]
      rw [if_pos rfl, sumFor_zero_of_not_mem ps net q.id
        (fun q' hq' e => hq (e ▸ List.mem_map.mpr ⟨q', hq', rfl⟩))]
      simp
    · have hqp : q.id ≠ p.id := by
        intro e
        exact hq (e ▸ List.mem_map.mpr ⟨p, h, rfl⟩)
      rw [if_neg hqp, ih h hps]
      simp

/-- Reconciliation through the sorted, filtered entry lists: for any
zero-summing entry list, the greedy loop's lines reconcile each id's
total entry balance. -/
theorem netLoop_sorted_recon (l : List (Player × Int))
    (hz : (l.map (fun e => e.2)).sum = 0) (x : String) :
    paidTo (netLoop
        ((l.filter (fun e => e.2 < 0)).mergeSort (fun a b => a.2 ≤ b.2))
        ((l.filter (fun e => 0 < e.2)).mergeSort (fun a b => b.2 ≤ a.2))) x
      - paidBy (netLoop
        ((l.filter (fun e => e.2 < 0)).mergeSort (fun a b => a.2 ≤ b.2))
        ((l.filter (fun e => 0 < e.2)).mergeSort (fun a b => b.2 ≤ a.2))) x
    = sumFor l x := by
  have hpermC : ((l.filter (fun e => 0 < e.2)).mergeSort (fun a b => b.2 ≤ a.2)).Perm
      (l.filter (fun e => 0 < e.2)) := List.mergeSort_perm _ _
  have hpermD : ((l.filter (fun e => e.2 < 0)).mergeSort (fun a b => a.2 ≤ b.2)).Perm
      (l.filter (fun e => e.2 < 0)) := List.mergeSort_perm _ _
  have hcpos : ∀ e ∈ (l.filter (fun e => 0 < e.2)).mergeSort (fun a b => b.2 ≤ a.2),
      0 < e.2 := by
    intro e he
    have hmem := hpermC.mem_iff.mp he
    have := List.of_mem_filter hmem
    simpa using this
  have hdneg : ∀ e ∈ (l.filter (fun e => e.2 < 0)).mergeSort (fun a b => a.2 ≤ b.2),
      e.2 < 0 := by
    intro e he
    have hmem := hpermD.mem_iff.mp he
    have := List.of_mem_filter hmem
    simpa using this
  have hsumC : (((l.filter (fun e => 0 < e.2)).mergeSort
        (fun a b => b.2 ≤ a.2)).map (fun e => e.2)).sum
      = ((l.filter (fun e => 0 < e.2)).map (fun e => e.2)).sum :=
    (hpermC.map _).sum_eq
  have hsumD : (((l.filter (fun e => e.2 < 0)).mergeSort
        (fun a b => a.2 ≤ b.2)).map (fun e => e.2)).sum
      = ((l.filter (fun e => e.2 < 0)).map (fun e => e.2)).sum :=
    (hpermD.map _).sum_eq
  have hsplit := split_sum_sign l
  have hzs : (((l.filter (fun e => e.2 < 0)).mergeSort
        (fun a b => a.2 ≤ b.2)).map (fun e => e.2)).sum
      + (((l.filter (fun e => 0 < e.2)).mergeSort
        (fun a b => b.2 ≤ a.2)).map (fun e => e.2)).sum = 0 := by
    rw [hsumC, hsumD]
    omega
  rw [netLoop_recon _ _ _ le_rfl hdneg hcpos hzs x]
  have hsfC : sumFor ((l.filter (fun e => 0 < e.2)).mergeSort (fun a b => b.2 ≤ a.2)) x
      = sumFor (l.filter (fun e => 0 < e.2)) x :=
    (hpermC.map _).sum_eq
  have hsfD : sumFor ((l.filter (fun e => e.2 < 0)).mergeSort (fun a b => a.2 ≤ b.2)) x
      = sumFor (l.filter (fun e => e.2 < 0)) x :=
    (hpermD.map _).sum_eq
  rw [hsfC, hsfD, split_sumFor_sign l x]

/-! ## C2 -/

/-- C2: for any players and any net-balance map (integer cents) summing
to zero over those players, the lines produced by `settlementLinesFromNet`
exactly reconcile every player's balance: inflow minus outflow equals the
player's original net. -/
theorem netting_reconciles (players : List Player) (net : String → Int)
    (hnd : (players.map Player.id).Nodup)
    (hz : (players.map (fun p => net p.id)).sum = 0) :
    ∀ p ∈ players,
      paidTo (settlementLinesFromNet players net) p.id
        - paidBy (settlementLinesFromNet players net) p.id = net p.id := by
  intro p hp
  have hzent : ((players.map (fun q => (q, net q.id))).map (fun e => e.2)).sum = 0 := by
    rw [List.map_map]
    exact hz
  have := netLoop_sorted_recon (players.map (fun q => (q, net q.id))) hzent p.id
  unfold settlementLinesFromNet
  rw [this]
  exact sumFor_entries players net hp hnd

/-- Spec scenario C: balances A −300, B −200, C +500. -/
def scenarioCNet : String → Int :=
  fun x => if x = "A" then -300 else if x = "B" then -200 else if x = "C" then 500 else 0

/-- Witness for C2 on scenario C: player A's lines reconcile to −300. -/
theorem netting_reconciles_witness :
    paidTo (settlementLinesFromNet [pA, pB, pC] scenarioCNet) "A"
      - paidBy (settlementLinesFromNet [pA, pB, pC] scenarioCNet) "A" = -300 :=
  netting_reconciles [pA, pB, pC] scenarioCNet (by decide) (by decide) pA (by decide)

/-! ## C7 -/

/-- C7: the number of settlement lines never exceeds
`#creditors + #debtors − 1` (players with positive, resp. negative, net),
and no line involves a player whose net balance is zero (every payer has
strictly negative net, every payee strictly positive). -/
theorem netting_line_bound (players : List Player) (net : String → Int)
    (hz : (players.map (fun p => net p.id)).sum = 0) :
    (settlementLinesFromNet players net).length
      ≤ (players.filter (fun p => 0 < net p.id)).length
        + (players.filter (fun p => net p.id < 0)).length - 1
    ∧ ∀ l ∈ settlementLinesFromNet players net,
        net l.fromPlayer.id < 0 ∧ 0 < net l.toPlayer.id := by
  have hpermC : (((players.map (fun q => (q, net q.id))).filter
        (fun e => 0 < e.2)).mergeSort (fun a b => b.2 ≤ a.2)).Perm
      ((players.map (fun q => (q, net q.id))).filter (fun e => 0 < e.2)) :=
    List.mergeSort_perm _ _
  have hpermD : (((players.map (fun q => (q, net q.id))).filter
        (fun e => e.2 < 0)).mergeSort (fun a b => a.2 ≤ b.2)).Perm
      ((players.map (fun q => (q, net q.id))).filter (fun e => e.2 < 0)) :=
    List.mergeSort_perm _ _
  have hval : ∀ e ∈ players.map (fun q => (q, net q.id)), e.2 = net e.1.id := by
    intro e he
    obtain ⟨q, _, rfl⟩ := List.mem_map.mp he
    rfl
  constructor
  · have hb := netLoop_length_le
      ((((players.map (fun q => (q, net q.id))).filter
        (fun e => e.2 < 0)).mergeSort (fun a b => a.2 ≤ b.2)).length
      + (((players.map (fun q => (q, net q.id))).filter
        (fun e => 0 < e.2)).mergeSort (fun a b => b.2 ≤ a.2)).length)
      (((players.map (fun q => (q, net q.id))).filter
        (fun e => e.2 < 0)).mergeSort (fun a b => a.2 ≤ b.2))
      (((players.map (fun q => (q, net q.id))).filter
        (fun e => 0 < e.2)).mergeSort (fun a b => b.2 ≤ a.2)) le_rfl
    have hlenC : (((players.map (fun q => (q, net q.id))).filter
          (fun e => 0 < e.2)).mergeSort (fun a b => b.2 ≤ a.2)).length
        = (players.filter (fun p => 0 < net p.id)).length := by
      rw [hpermC.length_eq, List.filter_map, List.length_map]
      rfl
    have hlenD : (((players.map (fun q => (q, net q.id))).filter
          (fun e => e.2 < 0)).mergeSort (fun a b => a.2 ≤ b.2)).length
        = (players.filter (fun p => net p.id < 0)).length := by
      rw [hpermD.length_eq, List.filter_map, List.length_map]
      rfl
    show (settlementLinesFromNet players net).length ≤ _
    unfold settlementLinesFromNet
    rw [hlenC, hlenD] at hb
    omega
  · intro l hl
    unfold settlementLinesFromNet at hl
    have hd : ∀ e ∈ ((players.map (fun q => (q, net q.id))).filter
        (fun e => e.2 < 0)).mergeSort (fun a b => a.2 ≤ b.2), net e.1.id < 0 := by
      intro e he
      have hf := hpermD.mem_iff.mp he
      have h2 : e.2 < 0 := by simpa using List.of_mem_filter hf
      have hm : e ∈ players.map (fun q => (q, net q.id)) := (List.mem_filter.mp hf).1
      rw [← hval e hm]
      exact h2
    have hc : ∀ e ∈ ((players.map (fun q => (q, net q.id))).filter
        (fun e => 0 < e.2)).mergeSort (fun a b => b.2 ≤ a.2), 0 < net e.1.id := by
      intro e he
      have hf := hpermC.mem_iff.mp he
      have h2 : 0 < e.2 := by simpa using List.of_mem_filter hf
      have hm : e ∈ players.map (fun q => (q, net q.id)) := (List.mem_filter.mp hf).1
      rw [← hval e hm]
      exact h2
    exact netLoop_endpoints (fun q => net q.id < 0) (fun q => 0 < net q.id)
      ((((players.map (fun q => (q, net q.id))).filter
          (fun e => e.2 < 0)).mergeSort (fun a b => a.2 ≤ b.2)).length
        + (((players.map (fun q => (q, net q.id))).filter
          (fun e => 0 < e.2)).mergeSort (fun a b => b.2 ≤ a.2)).length)
      (((players.map (fun q => (q, net q.id))).filter
        (fun e => e.2 < 0)).mergeSort (fun a b => a.2 ≤ b.2))
      (((players.map (fun q => (q, net q.id))).filter
        (fun e => 0 < e.2)).mergeSort (fun a b => b.2 ≤ a.2))
      le_rfl hd hc l hl

/-- Witness for C7 on scenario C: two lines, bound `1 + 2 − 1 = 2`. -/
theorem netting_line_bound_witness :
    (settlementLinesFromNet [pA, pB, pC] scenarioCNet).length
      ≤ ([pA, pB, pC].filter (fun p => 0 < scenarioCNet p.id)).length
        + ([pA, pB, pC].filter (fun p => scenarioCNet p.id < 0)).length - 1 :=
  (netting_line_bound [pA, pB, pC] scenarioCNet (by decide)).1

/-! ## C4 -/

theorem sum_net_formula (l : List Player) (f : String → Int) (N T d : Int) :
    (l.map (fun p => (f p.id * N - T) * d)).sum
      = ((l.map (fun p => f p.id)).sum * N - l.length * T) * d := by
  induction l with
  | nil => simp
  | cons q l ih =>
    simp only [List.map_cons, List.sum_cons, List.length_cons, ih]
    push_cast
    ring

/-- C4: for at least 2 players and a positive dollars-per-point amount,
`computeBBBSettlement` assigns
`net[p] = dollarsPerPoint × (points[p] × N − totalPoints)` to every
player, and these nets sum to exactly zero for any point distribution. -/
theorem bbb_settlement_zero_sum (players : List Player) (points : String → Int)
    (dollarsPerPointCents : Int) (h2 : 2 ≤ players.length)
    (hpos : 0 < dollarsPerPointCents) :
    (∀ p ∈ players,
      (computeBBBSettlement players points dollarsPerPointCents).netByPlayer p.id
        = dollarsPerPointCents * (points p.id * players.length
            - (players.map (fun q => points q.id)).sum))
    ∧ (players.map (fun p =>
        (computeBBBSettlement players points dollarsPerPointCents).netByPlayer p.id)).sum
      = 0 := by
  have hn1 : ¬ (players.length ≤ 1) := by omega
  constructor
  · intro p hp
    unfold computeBBBSettlement
    rw [if_neg hn1]
    simp only
    ring
  · have hform := sum_net_formula players points players.length
      ((players.map (fun q => points q.id)).sum) dollarsPerPointCents
    unfold computeBBBSettlement
    rw [if_neg hn1]
    simp only
    rw [hform]
    ring

/-- Spec scenario D: 2 players, 100¢ per point, points A:3 B:1. -/
def scenarioDPoints : String → Int := fun x => if x = "A" then 3 else if x = "B" then 1 else 0

/-- Witness for C4 on scenario D: A's net is `100 × (3×2 − 4) = 200` and
the nets sum to zero. -/
theorem bbb_settlement_zero_sum_witness :
    (computeBBBSettlement [pA, pB] scenarioDPoints 100).netByPlayer "A"
        = 100 * (3 * 2 - 4)
    ∧ ([pA, pB].map (fun p =>
        (computeBBBSettlement [pA, pB] scenarioDPoints 100).netByPlayer p.id)).sum = 0 :=
  ⟨(bbb_settlement_zero_sum [pA, pB] scenarioDPoints 100 (by decide) (by decide)).1
      pA (by decide),
    (bbb_settlement_zero_sum [pA, pB] scenarioDPoints 100 (by decide) (by decide)).2⟩
